import Mathlib

/-!
Verification development for `src/scrape_headlines.py`, a single-file news
scraping pipeline.  The Python source is shallowly embedded below: pure
string-processing functions (`clean_text`, `summarize`, `dedup`,
`find_links_from_section`) are translated directly; the network-dependent
parts (`get_soup`, `extract_article`, `scrape_one`, `main`) are modelled by
parametrising over the fetch/extraction outcomes, keeping the control flow
of the source.  Machine integers appearing in the MD5 fingerprint are
modelled as `Nat` with explicit reduction modulo 2^32.
-/

set_option maxRecDepth 20000

/-! ## Character classes used by the regular expressions in the source

The source uses Python `re` character classes `\s`, `\w`, `\d` (on `str`,
hence Unicode-aware).  We embed the fragments of those classes that are
exercised here: all ASCII whitespace plus the common Unicode space
characters for `\s`; ASCII alphanumerics, underscore and Hangul for `\w`
(other Unicode word characters do not occur in the patterns' literals);
ASCII digits for `\d`. -/

def isPyWs (c : Char) : Bool :=
  c == ' ' || c == '\t' || c == '\n' || c == '\r' || c == '\x0b' || c == '\x0c' ||
  c == '\x1c' || c == '\x1d' || c == '\x1e' || c == '\x1f' || c == '\x85' || c == '\xa0' ||
  c == '\u1680' || (decide (0x2000 ≤ c.toNat) && decide (c.toNat ≤ 0x200A)) ||
  c == '\u2028' || c == '\u2029' || c == '\u202F' || c == '\u205F' || c == '\u3000'

def isWordChar (c : Char) : Bool :=
  c.isAlphanum || c == '_' ||
  (decide (0xAC00 ≤ c.toNat) && decide (c.toNat ≤ 0xD7A3)) ||
  (decide (0x1100 ≤ c.toNat) && decide (c.toNat ≤ 0x11FF)) ||
  (decide (0x3131 ≤ c.toNat) && decide (c.toNat ≤ 0x318E))

def isDigitCh (c : Char) : Bool := c.isDigit

/-- Character class `[\w\.-]` of the email pattern in `clean_text`. -/
def isEmailCls (c : Char) : Bool := isWordChar c || c == '.' || c == '-'

/-! ## Substring predicates on `List Char` -/

/-- `w` is a prefix of `s`. -/
def isPre (w s : List Char) : Prop := ∃ t, s = w ++ t

/-- `w` is a suffix of `s`. -/
def isSuf (w s : List Char) : Prop := ∃ a, s = a ++ w

/-- `w` occurs contiguously inside `s` (Python's `in` on strings). -/
def isSub (w s : List Char) : Prop := ∃ a b, s = a ++ w ++ b

/-! ## A generic model of `re.sub(pattern, " ", text)`

Each regex pattern of `clean_text` is embedded as a function
`List Char → Option Nat` giving, for a given scan position (a suffix of the
text), the length of the (greedy, leftmost) match starting there, if any.
`gsubAux` then performs Python's `re.sub` scan: find the leftmost match,
replace it by a single space, continue after it; characters not starting a
match are kept.  Fuel makes the recursion structural; every matcher of the
source consumes at least one character per match, so fuel equal to the
length of the text suffices. -/

def mkMatcher (f : List Char → Option Nat) (cs : List Char) : Option (List Char) :=
  (f cs).map (fun k => cs.drop k)

def gsubAux (m : List Char → Option (List Char)) : Nat → List Char → List Char
  | 0, _ => []
  | _ + 1, [] => []
  | fuel + 1, c :: cs =>
    match m (c :: cs) with
    | some rest => ' ' :: gsubAux m fuel rest
    | none => c :: gsubAux m fuel cs

def gsubStr (f : List Char → Option Nat) (s : String) : String :=
  String.mk (gsubAux (mkMatcher f) s.data.length s.data)

/-! ## The four substitution patterns of `clean_text` -/

/-- Largest backtracking split point `b` inside the run after `@`: the
`[\w\.-]+` group takes `b` characters, then `\.` must see a dot and `\w+`
at least one word character.  The default `'@'` is outside the class, so an
out-of-range index can never validate. -/
def validDot (run : List Char) (b : Nat) : Bool :=
  decide (1 ≤ b) && (run.getD b '@' == '.') && isWordChar (run.getD (b + 1) '@')

def findDot (run : List Char) : Option Nat :=
  (List.range run.length).reverse.find? (validDot run)

/-- Match length of `[\w\.-]+@[\w\.-]+\.\w+` at the head of `cs`
(the email pattern of `clean_text`), with Python `re` greedy semantics. -/
def emailLen (cs : List Char) : Option Nat :=
  let a := cs.takeWhile isEmailCls
  if a.isEmpty then none else
  match cs.drop a.length with
  | '@' :: rest2 =>
    let run := rest2.takeWhile isEmailCls
    (findDot run).map
      (fun b => a.length + 1 + (b + 1) + ((run.drop (b + 1)).takeWhile isWordChar).length)
  | _ => none

/-- Match length of `\d{2,3}-\d{3,4}-\d{4}` at the head of `cs`
(the phone pattern of `clean_text`).  The counted groups backtrack from the
greedy maximum; since shrinking a digit group leaves a digit where `-` is
required, a match exists exactly when the maximal digit runs have the
lengths tested below. -/
def phoneLen (cs : List Char) : Option Nat :=
  let r1 := (cs.takeWhile isDigitCh).length
  if r1 = 2 ∨ r1 = 3 then
    match cs.drop r1 with
    | '-' :: t1 =>
      let r2 := (t1.takeWhile isDigitCh).length
      if r2 = 3 ∨ r2 = 4 then
        match t1.drop r2 with
        | '-' :: t2 => if 4 ≤ (t2.takeWhile isDigitCh).length then some (r1 + 1 + r2 + 1 + 4) else none
        | _ => none
      else none
    | _ => none
  else none

def eatLit : List Char → List Char → Option (List Char)
  | [], cs => some cs
  | _ :: _, [] => none
  | x :: xs, c :: cs => if c == x then eatLit xs cs else none

/-- Match length of `무단\s*전재\s*및\s*재배포\s*금지` at the head of `cs`
(the copyright-boilerplate pattern of `clean_text`).  `\s*` is greedy and
no whitespace character equals a literal of the phrase, so taking the
maximal whitespace run is faithful. -/
def boilerLen (cs : List Char) : Option Nat :=
  match eatLit ['무', '단'] cs with
  | none => none
  | some r1 =>
    match eatLit ['전', '재'] (r1.dropWhile isPyWs) with
    | none => none
    | some r2 =>
      match eatLit ['및'] (r2.dropWhile isPyWs) with
      | none => none
      | some r3 =>
        match eatLit ['재', '배', '포'] (r3.dropWhile isPyWs) with
        | none => none
        | some r4 =>
          match eatLit ['금', '지'] (r4.dropWhile isPyWs) with
          | none => none
          | some r5 => some (cs.length - r5.length)

/-- Match length of `\s+` at the head of `cs` (whitespace collapsing). -/
def wsLen : List Char → Option Nat
  | [] => none
  | c :: cs => if isPyWs c then some (1 + (cs.takeWhile isPyWs).length) else none

/-- Python `str.strip()`. -/
def pyStrip (l : List Char) : List Char :=
  ((l.dropWhile isPyWs).reverse.dropWhile isPyWs).reverse

def pyStripStr (s : String) : String := String.mk (pyStrip s.data)

/-- `clean_text` from the source: strip emails, phone numbers and the
copyright boilerplate, collapse whitespace runs to single spaces, trim. -/
def clean_text (t : String) : String :=
  if t = "" then "" else
  pyStripStr (gsubStr wsLen (gsubStr boilerLen (gsubStr phoneLen (gsubStr emailLen t))))

/-! ## `summarize`: sentence split, join first three, truncate

`re.split(r"(?:다\.|요\.|[.!?])\s+", text)` is embedded as a scan: at each
position try the ordered alternatives `다.`, `요.`, `[.!?]`, each followed
by `\s+` (greedy).  The alternatives' first characters are pairwise
distinct, so no backtracking across alternatives can occur; a position
where the separator matches ends the current fragment. -/

def wsPlusLen : List Char → Option Nat
  | [] => none
  | c :: cs => if isPyWs c then some (1 + (cs.takeWhile isPyWs).length) else none

def sentSepLen : List Char → Option Nat
  | '다' :: '.' :: rest => (wsPlusLen rest).map (fun n => 2 + n)
  | '요' :: '.' :: rest => (wsPlusLen rest).map (fun n => 2 + n)
  | c :: rest => if c = '.' ∨ c = '!' ∨ c = '?' then (wsPlusLen rest).map (fun n => 1 + n) else none
  | [] => none

def splitSentAux : Nat → List Char → List Char → List String
  | 0, cs, acc => [String.mk (acc.reverse ++ cs)]
  | _ + 1, [], acc => [String.mk acc.reverse]
  | fuel + 1, c :: cs, acc =>
    match sentSepLen (c :: cs) with
    | some k => String.mk acc.reverse :: splitSentAux fuel ((c :: cs).drop k) []
    | none => splitSentAux fuel cs (c :: acc)

/-- The list `parts` of `summarize`: split on sentence separators, strip
each fragment, keep the non-empty ones. -/
def sentParts (text : String) : List String :=
  ((splitSentAux text.data.length text.data []).map pyStripStr).filter (fun p => p != "")

/-- Python's `" ".join`. -/
def joinSp : List String → String
  | [] => ""
  | p :: rest => rest.foldl (fun acc q => acc ++ " " ++ q) p

/-- Python string slice `s[:n]` (by code points, as in Python). -/
def pyTake (s : String) (n : Nat) : String := String.mk (s.data.take n)

/-- `summarize` from the source (`max_len` defaults to 420 at call sites). -/
def summarize (text : String) (max_len : Nat) : String :=
  if text = "" then "" else
  let parts := sentParts text
  let s := joinSp (parts.take 3)
  if max_len < s.length then pyTake s max_len ++ "…" else s

/-! ## MD5 (`hashlib.md5`) over the UTF-8 encoding of a string

A direct embedding of MD5 on byte lists (`Nat`s below 256), with 32-bit
words as `Nat` reduced modulo `2^32`.  Used by `dedup` for the record
fingerprint `md5((title + content[:160]).encode("utf-8")).hexdigest()`. -/

def utf8Char (c : Char) : List Nat :=
  let n := c.toNat
  if n < 128 then [n]
  else if n < 2048 then [192 + n / 64, 128 + n % 64]
  else if n < 65536 then [224 + n / 4096, 128 + n / 64 % 64, 128 + n % 64]
  else [240 + n / 262144, 128 + n / 4096 % 64, 128 + n / 64 % 64, 128 + n % 64]

def utf8Encode (s : String) : List Nat :=
  s.data.foldr (fun c acc => utf8Char c ++ acc) []

def md5K : List Nat :=
  [0xd76aa478, 0xe8c7b756, 0x242070db, 0xc1bdceee,
   0xf57c0faf, 0x4787c62a, 0xa8304613, 0xfd469501,
   0x698098d8, 0x8b44f7af, 0xffff5bb1, 0x895cd7be,
   0x6b901122, 0xfd987193, 0xa679438e, 0x49b40821,
   0xf61e2562, 0xc040b340, 0x265e5a51, 0xe9b6c7aa,
   0xd62f105d, 0x02441453, 0xd8a1e681, 0xe7d3fbc8,
   0x21e1cde6, 0xc33707d6, 0xf4d50d87, 0x455a14ed,
   0xa9e3e905, 0xfcefa3f8, 0x676f02d9, 0x8d2a4c8a,
   0xfffa3942, 0x8771f681, 0x6d9d6122, 0xfde5380c,
   0xa4beea44, 0x4bdecfa9, 0xf6bb4b60, 0xbebfbc70,
   0x289b7ec6, 0xeaa127fa, 0xd4ef3085, 0x04881d05,
   0xd9d4d039, 0xe6db99e5, 0x1fa27cf8, 0xc4ac5665,
   0xf4292244, 0x432aff97, 0xab9423a7, 0xfc93a039,
   0x655b59c3, 0x8f0ccc92, 0xffeff47d, 0x85845dd1,
   0x6fa87e4f, 0xfe2ce6e0, 0xa3014314, 0x4e0811a1,
   0xf7537e82, 0xbd3af235, 0x2ad7d2bb, 0xeb86d391]

def md5S : List Nat :=
  [7, 12, 17, 22, 7, 12, 17, 22, 7, 12, 17, 22, 7, 12, 17, 22,
   5, 9, 14, 20, 5, 9, 14, 20, 5, 9, 14, 20, 5, 9, 14, 20,
   4, 11, 16, 23, 4, 11, 16, 23, 4, 11, 16, 23, 4, 11, 16, 23,
   6, 10, 15, 21, 6, 10, 15, 21, 6, 10, 15, 21, 6, 10, 15, 21]

def add32 (a b : Nat) : Nat := (a + b) % 4294967296

def rotl32 (x s : Nat) : Nat :=
  (x * 2 ^ s) % 4294967296 + x / 2 ^ (32 - s)

def md5F (i b c d : Nat) : Nat :=
  if i < 16 then (b &&& c) ||| ((b ^^^ 4294967295) &&& d)
  else if i < 32 then (d &&& b) ||| ((d ^^^ 4294967295) &&& c)
  else if i < 48 then (b ^^^ c) ^^^ d
  else c ^^^ (b ||| (d ^^^ 4294967295))

def md5G (i : Nat) : Nat :=
  if i < 16 then i
  else if i < 32 then (5 * i + 1) % 16
  else if i < 48 then (3 * i + 5) % 16
  else (7 * i) % 16

def chunkWord (block : List Nat) (j : Nat) : Nat :=
  block.getD (4 * j) 0 + 256 * block.getD (4 * j + 1) 0 +
  65536 * block.getD (4 * j + 2) 0 + 16777216 * block.getD (4 * j + 3) 0

def md5Step (block : List Nat) (st : Nat × Nat × Nat × Nat) (i : Nat) : Nat × Nat × Nat × Nat :=
  match st with
  | (a, b, c, d) =>
    let tmp := add32 (add32 (add32 a (md5F i b c d)) (md5K.getD i 0)) (chunkWord block (md5G i))
    (d, add32 b (rotl32 tmp (md5S.getD i 0)), b, c)

def md5Chunk (block : List Nat) (st : Nat × Nat × Nat × Nat) : Nat × Nat × Nat × Nat :=
  match st, (List.range 64).foldl (md5Step block) st with
  | (a0, b0, c0, d0), (a, b, c, d) => (add32 a0 a, add32 b0 b, add32 c0 c, add32 d0 d)

def md5Blocks : Nat → List Nat → Nat × Nat × Nat × Nat → Nat × Nat × Nat × Nat
  | 0, _, st => st
  | _ + 1, [], st => st
  | fuel + 1, b :: bytes, st =>
    md5Blocks fuel ((b :: bytes).drop 64) (md5Chunk ((b :: bytes).take 64) st)

def md5Pad (msg : List Nat) : List Nat :=
  msg ++ [128] ++ List.replicate ((119 - msg.length % 64) % 64) 0 ++
  (List.range 8).map (fun i => 8 * msg.length / 256 ^ i % 256)

/-- Little-endian byte decomposition of a 32-bit word. -/
def wordLE (w : Nat) : List Nat := [w % 256, w / 256 % 256, w / 65536 % 256, w / 16777216 % 256]

def md5Quad (msg : List Nat) : Nat × Nat × Nat × Nat :=
  let padded := md5Pad msg
  md5Blocks padded.length padded (0x67452301, 0xefcdab89, 0x98badcfe, 0x10325476)

def md5Bytes (msg : List Nat) : List Nat :=
  wordLE (md5Quad msg).1 ++ wordLE (md5Quad msg).2.1 ++
  wordLE (md5Quad msg).2.2.1 ++ wordLE (md5Quad msg).2.2.2

/-- Lowercase hex digit: `0`-`9` then `a`-`f` (48 = `'0'`, 87 + 10 = `'a'`). -/
def hexDigit (n : Nat) : Char :=
  if n < 10 then Char.ofNat (48 + n) else Char.ofNat (87 + n)

/-- `hashlib.md5(bytes).hexdigest()`. -/
def md5hex (msg : List Nat) : String :=
  String.mk ((md5Bytes msg).foldr (fun b acc => hexDigit (b / 16) :: hexDigit (b % 16) :: acc) [])

/-- The 128-bit digest read as a number (big-endian over the digest bytes). -/
def md5Nat (msg : List Nat) : Nat :=
  (md5Bytes msg).foldl (fun acc b => acc * 256 + b) 0

/-! ## Data model: Article Records and `dedup` -/

/-- An Article Record as built by `scrape_one` (`sect` models the `"section"` field; `section` is a Lean keyword). -/
structure Row where
  date : String
  sect : String
  url : String
  title : String
  content : String
  summary : String
deriving DecidableEq

/-- The dedup fingerprint of a record:
`hashlib.md5((r["title"] + r["content"][:160]).encode("utf-8")).hexdigest()`.
`String.take` takes code points, as Python slicing does. -/
def fp (r : Row) : String := md5hex (utf8Encode (r.title ++ String.mk (r.content.data.take 160)))

/-- The `seen` set of `dedup`, modelled as the list of fingerprints added so
far (membership is all the source uses). -/
def dedupAux : List Row → List String → List Row
  | [], _ => []
  | r :: rs, seen =>
    if fp r ∈ seen then dedupAux rs seen else r :: dedupAux rs (fp r :: seen)

/-- `dedup` from the source: keep the first record per fingerprint. -/
def dedup (rows : List Row) : List Row := dedupAux rows []

/-! ## `find_links_from_section` -/

/-- Boolean prefix test on char lists. -/
def isPreB : List Char → List Char → Bool
  | [], _ => true
  | _ :: _, [] => false
  | a :: as, b :: bs => a == b && isPreB as bs

/-- Python `needle in haystack` on strings. -/
def hasSubB (needle : List Char) : List Char → Bool
  | [] => isPreB needle []
  | c :: t => isPreB needle (c :: t) || hasSubB needle t

def containsStr (s pat : String) : Bool := hasSubB pat.data s.data

/-- The link acceptance test of `find_links_from_section`:
`("/read.naver" in href) or ("/mnews/article/" in href)`. -/
def articlePattern (href : String) : Bool :=
  containsStr href "/read.naver" || containsStr href "/mnews/article/"

/-- `href if href.startswith("http") else "https://news.naver.com" + href`. -/
def resolveHref (href : String) : String :=
  if isPreB ("http".data) href.data then href else "https://news.naver.com" ++ href

/-- The scan of `find_links_from_section` over the `href` attributes of the
document's anchors (in document order), carrying the `links` accumulator
and the `seen` set (as a list); stops once `limit * 6` links are collected. -/
def findLinksAux : List String → List String → List String → Nat → List String
  | [], links, _, _ => links
  | h :: rest, links, seen, limit =>
    if h = "" then findLinksAux rest links seen limit
    else if ¬ articlePattern h then findLinksAux rest links seen limit
    else
      let href := resolveHref h
      let links' := if href ∈ seen then links else links ++ [href]
      let seen' := if href ∈ seen then seen else href :: seen
      if limit * 6 ≤ links'.length then links' else findLinksAux rest links' seen' limit

/-- `find_links_from_section`, as a function of the anchors' hrefs. -/
def find_links_from_section (hrefs : List String) (limit : Nat) : List String :=
  findLinksAux hrefs [] [] limit

/-- Keep-first deduplication of a list of URLs, preserving first-seen
order.  This is the spec's description of the Link Extractor's output
order ("a set of seen URLs suppresses duplicates while preserving
first-seen order"); `find_links_from_section` is proved below to return a
prefix (`take (6 * k)`) of this list applied to the accepted, resolved
hrefs. -/
def dedupFirstAux : List String → List String → List String
  | [], _ => []
  | x :: xs, seen => if x ∈ seen then dedupFirstAux xs seen else x :: dedupFirstAux xs (x :: seen)

def dedupFirst (l : List String) : List String := dedupFirstAux l []

/-! ## `extract_article`

The fetched, parsed document is modelled by the answers its query methods
give: `selOne sel` is `soup.select_one(sel)` (`none` when no element
matches), where a found element carries both of the texts the source reads
from it: `plain` is `el.get_text(strip=True)` (the non-emptiness check) and
`spaced` is `el.get_text(" ", strip=True)` (the value used).  `titleTag` is
the `soup.title` element.  `get_soup` raising is modelled by the fetch
oracle returning `none` for that rendering. -/

structure TextEl where
  plain : String
  spaced : String
deriving DecidableEq

structure Doc where
  selOne : String → Option TextEl
  titleTag : Option TextEl

def title_selectors : List String :=
  ["h2#title_area", ".media_end_head_headline", "h1#title_area", "h1.end_tit", "title"]

def body_selectors : List String :=
  ["div#dic_area", "article#newsct_article", "div#articleBodyContents", "div#articeBody"]

/-- The selector loop: first selector whose element exists and has
non-empty `plain` text wins, contributing its `spaced` text. -/
def firstSel (d : Doc) : List String → String
  | [] => ""
  | sel :: rest =>
    match d.selOne sel with
    | some el => if el.plain ≠ "" then el.spaced else firstSel d rest
    | none => firstSel d rest

/-- Title of a document: selector loop, then the `soup.title` fallback. -/
def docTitle (d : Doc) : String :=
  let t := firstSel d title_selectors
  if t = "" then
    match d.titleTag with
    | some el => el.plain
    | none => ""
  else t

/-- Cleaned body of a document. -/
def docBody (d : Doc) : String := clean_text (firstSel d body_selectors)

/-- The result record of `extract_article` (`{"title": ..., "content": ...}`). -/
structure Extracted where
  title : String
  content : String
deriving DecidableEq

/-- The `for mobile_flag in (False, True)` loop of `extract_article`. -/
def extractLoop (fetch : Bool → Option Doc) : List Bool → Extracted
  | [] => ⟨"", ""⟩
  | m :: rest =>
    match fetch m with
    | none => extractLoop fetch rest
    | some d =>
      if docTitle d ≠ "" ∧ docBody d ≠ "" then ⟨docTitle d, docBody d⟩ else extractLoop fetch rest

/-- `extract_article`, as a function of the fetch outcomes (desktop /
mobile).  A fetch failure (exception in `get_soup`) is `none`. -/
def extract_article (fetch : Bool → Option Doc) : Extracted :=
  extractLoop fetch [false, true]

/-! ## `scrape_one` and `main`

The per-article extraction outcome is an oracle `extract : String → Extracted`
(what `extract_article` returns for each url); the candidate links, today's
date string and the section name are parameters.  The article loop appends
a record when both title and content are non-empty and stops as soon as the
result list has reached `top_k`. -/

def mkRow (today sec url : String) (art : Extracted) : Row :=
  ⟨today, sec, url, art.title, art.content, summarize art.content 420⟩

def scrapeLoop (extract : String → Extracted) (today sec : String) (top_k : Nat) :
    List String → List Row → List Row
  | [], rows => rows
  | h :: rest, rows =>
    let art := extract h
    let rows' := if art.title ≠ "" ∧ art.content ≠ "" then rows ++ [mkRow today sec h art] else rows
    if top_k ≤ rows'.length then rows' else scrapeLoop extract today sec top_k rest rows'

/-- The result list built by `scrape_one`'s article loop. -/
def scrapeRows (extract : String → Extracted) (today sec : String)
    (links : List String) (top_k : Nat) : List Row :=
  scrapeLoop extract today sec top_k links []

/-- `scrape_one`'s return value: `dedup(rows)[:top_k]`. -/
def scrape_one (extract : String → Extracted) (today sec : String)
    (links : List String) (top_k : Nat) : List Row :=
  (dedup (scrapeRows extract today sec links top_k)).take top_k

/-- The configured sections, in the insertion order of the source's dict. -/
def SECTIONS : List (String × Nat) :=
  [("politics", 100), ("economy", 101), ("society", 102),
   ("culture", 103), ("world", 104), ("it_science", 105)]

/-- The combined list `all_rows` accumulated by `main`, as a function of the
per-section results (`scrape` stands for what `scrape_one` returns for each
configured section name and id). -/
def mainRows (scrape : String → Nat → List Row) : List Row :=
  SECTIONS.foldl (fun acc p => acc ++ scrape p.1 p.2) []

/-! ## Lemmas about the substring predicates -/

theorem isSuf_refl (s : List Char) : isSuf s s := ⟨[], rfl⟩

theorem isSuf_trans {a b c : List Char} (h1 : isSuf a b) (h2 : isSuf b c) : isSuf a c := by
  obtain ⟨x, rfl⟩ := h1; obtain ⟨y, rfl⟩ := h2; exact ⟨y ++ x, by simp⟩

theorem isSuf_cons {t cs : List Char} (c : Char) (h : isSuf t cs) : isSuf t (c :: cs) := by
  obtain ⟨a, rfl⟩ := h; exact ⟨c :: a, rfl⟩

theorem drop_isSuf (l : List Char) (n : Nat) : isSuf (l.drop n) l :=
  ⟨l.take n, (List.take_append_drop n l).symm⟩

theorem mkMatcher_suf {f : List Char → Option Nat} {x r : List Char}
    (h : mkMatcher f x = some r) : isSuf r x := by
  unfold mkMatcher at h
  cases hf : f x with
  | none => rw [hf] at h; simp at h
  | some k => rw [hf] at h; simp at h; rw [← h]; exact drop_isSuf x k

theorem isSub_nil_elim {w : List Char} (h : isSub w []) : w = [] := by
  obtain ⟨a, b, hab⟩ := h
  rcases List.append_eq_nil.mp (List.append_eq_nil.mp hab.symm).1 with ⟨-, h2⟩
  exact h2

theorem isSub_of_isPre {w s : List Char} (h : isPre w s) : isSub w s := by
  obtain ⟨t, rfl⟩ := h; exact ⟨[], t, rfl⟩

theorem isSub_cons_elim {w s : List Char} {c : Char} (h : isSub w (c :: s)) :
    isPre w (c :: s) ∨ isSub w s := by
  obtain ⟨a, b, hab⟩ := h
  cases a with
  | nil => exact Or.inl ⟨b, by simpa using hab⟩
  | cons x a' =>
    simp at hab
    exact Or.inr ⟨a', b, by rw [List.append_assoc]; exact hab.2⟩

theorem isSub_cons_of {w s : List Char} (c : Char) (h : isSub w s) : isSub w (c :: s) := by
  obtain ⟨a, b, rfl⟩ := h; exact ⟨c :: a, b, rfl⟩

theorem isPre_cons_elim {w s : List Char} {c : Char} (h : isPre w (c :: s)) :
    w = [] ∨ ∃ w', w = c :: w' ∧ isPre w' s := by
  obtain ⟨t, ht⟩ := h
  cases w with
  | nil => exact Or.inl rfl
  | cons x w' =>
    simp at ht
    exact Or.inr ⟨w', by rw [ht.1], ⟨t, ht.2⟩⟩

theorem isSub_of_isSuf {w t s : List Char} (hts : isSuf t s) (h : isSub w t) : isSub w s := by
  obtain ⟨a, rfl⟩ := hts; obtain ⟨x, y, rfl⟩ := h
  exact ⟨a ++ x, y, by simp⟩

theorem isSub_reverse_elim {w x : List Char} (h : isSub w x.reverse) : isSub w.reverse x := by
  obtain ⟨a, b, hab⟩ := h
  refine ⟨b.reverse, a.reverse, ?_⟩
  have := congrArg List.reverse hab
  simpa [List.reverse_append, List.append_assoc] using this

theorem dropWhile_isSuf (p : Char → Bool) : ∀ l : List Char, isSuf (l.dropWhile p) l := by
  intro l
  induction l with
  | nil => exact ⟨[], rfl⟩
  | cons a l ih =>
    by_cases hp : p a
    · rw [List.dropWhile_cons_of_pos hp]; exact isSuf_cons a ih
    · rw [List.dropWhile_cons_of_neg hp]; exact isSuf_refl _

theorem pyStrip_isSub {w l : List Char} (h : isSub w (pyStrip l)) : isSub w l := by
  unfold pyStrip at h
  have h1 : isSub w.reverse ((l.dropWhile isPyWs).reverse.dropWhile isPyWs) := by
    simpa using isSub_reverse_elim h
  have h2 : isSub w.reverse (l.dropWhile isPyWs).reverse :=
    isSub_of_isSuf (dropWhile_isSuf _ _) h1
  have h3 : isSub w.reverse.reverse (l.dropWhile isPyWs) := isSub_reverse_elim h2
  rw [List.reverse_reverse] at h3
  exact isSub_of_isSuf (dropWhile_isSuf _ _) h3

/-! ## Generic lemmas about `gsubAux`

The output of a substitution scan consists of contiguous segments of the
input separated by single spaces, so a whitespace-free string occurs in the
output only where it occurred in the input and no match intersected it. -/

theorem gsubAux_pre (m : List Char → Option (List Char)) :
    ∀ (fuel : Nat) (u cs : List Char), (∀ c ∈ u, isPyWs c = false) →
      isPre u (gsubAux m fuel cs) → isPre u cs := by
  intro fuel
  induction fuel with
  | zero =>
    intro u cs _ h
    simp only [gsubAux] at h
    obtain ⟨t, ht⟩ := h
    rcases List.append_eq_nil.mp ht.symm with ⟨rfl, -⟩
    exact ⟨cs, rfl⟩
  | succ f ih =>
    intro u cs hu h
    cases cs with
    | nil =>
      simp only [gsubAux] at h
      obtain ⟨t, ht⟩ := h
      rcases List.append_eq_nil.mp ht.symm with ⟨rfl, -⟩
      exact ⟨[], rfl⟩
    | cons c cs' =>
      cases hmc : m (c :: cs') with
      | some r =>
        simp only [gsubAux, hmc] at h
        rcases isPre_cons_elim h with rfl | ⟨u', rfl, -⟩
        · exact ⟨c :: cs', rfl⟩
        · have := hu ' ' (List.mem_cons_self _ _)
          simp [isPyWs] at this
      | none =>
        simp only [gsubAux, hmc] at h
        rcases isPre_cons_elim h with rfl | ⟨u', rfl, hp'⟩
        · exact ⟨c :: cs', rfl⟩
        · obtain ⟨t, ht⟩ := ih u' cs' (fun x hx => hu x (List.mem_cons_of_mem _ hx)) hp'
          exact ⟨t, by rw [ht, List.cons_append]⟩

theorem gsubAux_no_occ (m : List Char → Option (List Char))
    (hm : ∀ x r, m x = some r → isSuf r x)
    (w : List Char) (hw : w ≠ []) (hws : ∀ c ∈ w, isPyWs c = false) :
    ∀ (fuel : Nat) (cs : List Char),
      (∀ t, isSuf t cs → isPre w t → (m t).isSome) → ¬ isSub w (gsubAux m fuel cs) := by
  intro fuel
  induction fuel with
  | zero =>
    intro cs _ h
    simp only [gsubAux] at h
    exact hw (isSub_nil_elim h)
  | succ f ih =>
    intro cs H h
    cases cs with
    | nil =>
      simp only [gsubAux] at h
      exact hw (isSub_nil_elim h)
    | cons c cs' =>
      cases hmc : m (c :: cs') with
      | some r =>
        simp only [gsubAux, hmc] at h
        rcases isSub_cons_elim h with hpre | hsub
        · rcases isPre_cons_elim hpre with rfl | ⟨w', rfl, -⟩
          · exact hw rfl
          · have := hws ' ' (List.mem_cons_self _ _)
            simp [isPyWs] at this
        · exact ih r (fun t ht hp => H t (isSuf_trans ht (hm _ _ hmc)) hp) hsub
      | none =>
        simp only [gsubAux, hmc] at h
        rcases isSub_cons_elim h with hpre | hsub
        · rcases isPre_cons_elim hpre with rfl | ⟨w', hw', hp'⟩
          · exact hw rfl
          · have hp2 : isPre w' cs' :=
              gsubAux_pre m f w' cs' (fun x hx => hws x (by rw [hw']; exact List.mem_cons_of_mem _ hx)) hp'
            obtain ⟨t, ht⟩ := hp2
            have hpw : isPre w (c :: cs') := ⟨t, by rw [hw', ht, List.cons_append]⟩
            have hs := H (c :: cs') (isSuf_refl _) hpw
            rw [hmc] at hs
            simp at hs
        · exact ih cs' (fun t ht hp => H t (isSuf_cons c ht) hp) hsub

theorem gsubAux_preserve (m : List Char → Option (List Char))
    (hm : ∀ x r, m x = some r → isSuf r x)
    (w : List Char) (hw : w ≠ []) (hws : ∀ c ∈ w, isPyWs c = false) :
    ∀ (fuel : Nat) (cs : List Char), ¬ isSub w cs → ¬ isSub w (gsubAux m fuel cs) := by
  intro fuel
  induction fuel with
  | zero =>
    intro cs _ h
    simp only [gsubAux] at h
    exact hw (isSub_nil_elim h)
  | succ f ih =>
    intro cs Hn h
    cases cs with
    | nil =>
      simp only [gsubAux] at h
      exact hw (isSub_nil_elim h)
    | cons c cs' =>
      cases hmc : m (c :: cs') with
      | some r =>
        simp only [gsubAux, hmc] at h
        rcases isSub_cons_elim h with hpre | hsub
        · rcases isPre_cons_elim hpre with rfl | ⟨w', rfl, -⟩
          · exact hw rfl
          · have := hws ' ' (List.mem_cons_self _ _)
            simp [isPyWs] at this
        · exact ih r (fun hr => Hn (isSub_of_isSuf (hm _ _ hmc) hr)) hsub
      | none =>
        simp only [gsubAux, hmc] at h
        rcases isSub_cons_elim h with hpre | hsub
        · rcases isPre_cons_elim hpre with rfl | ⟨w', hw', hp'⟩
          · exact hw rfl
          · have hp2 : isPre w' cs' :=
              gsubAux_pre m f w' cs' (fun x hx => hws x (by rw [hw']; exact List.mem_cons_of_mem _ hx)) hp'
            obtain ⟨t, ht⟩ := hp2
            exact Hn (isSub_of_isPre ⟨t, by rw [hw', ht, List.cons_append]⟩)
        · exact ih cs' (fun hr => Hn (isSub_cons_of c hr)) hsub

/-! ## The cleaning patterns match wherever their test strings occur -/

/-- The test email of the spec, as a character list. -/
def fooBarL : List Char := ['f', 'o', 'o', '@', 'b', 'a', 'r', '.', 'c', 'o', 'm']

/-- The test phone number of the spec, as a character list. -/
def phoneNumL : List Char := ['0', '2', '-', '1', '2', '3', '4', '-', '5', '6', '7', '8']

theorem optMap_isSome {α β : Type} (f : α → β) (o : Option α) : (o.map f).isSome = o.isSome := by
  cases o <;> rfl

theorem mkMatcher_isSome (f : List Char → Option Nat) (cs : List Char) :
    (mkMatcher f cs).isSome = (f cs).isSome := optMap_isSome _ _

theorem find?_isSome_of {α : Type} {p : α → Bool} :
    ∀ {l : List α} {x : α}, x ∈ l → p x = true → (l.find? p).isSome := by
  intro l
  induction l with
  | nil => intro x hx; cases hx
  | cons a l ih =>
    intro x hx hp
    cases hpa : p a with
    | true => simp [List.find?, hpa]
    | false =>
      rcases List.mem_cons.mp hx with rfl | hx'
      · rw [hpa] at hp; cases hp
      · simpa [List.find?, hpa] using ih hx' hp

theorem findDot_isSome {run : List Char} {b : Nat} (hb : b < run.length)
    (hv : validDot run b = true) : (findDot run).isSome :=
  find?_isSome_of (List.mem_reverse.mpr (List.mem_range.mpr hb)) hv

theorem phoneLen_isSome (t' : List Char) : (phoneLen (phoneNumL ++ t')).isSome := by
  have h4 : 4 ≤ (('5' :: '6' :: '7' :: '8' :: t').takeWhile isDigitCh).length := by
    have : ('5' :: '6' :: '7' :: '8' :: t').takeWhile isDigitCh =
        '5' :: '6' :: '7' :: '8' :: t'.takeWhile isDigitCh := rfl
    rw [this]; simp
  have hred : phoneLen (phoneNumL ++ t') =
      if 4 ≤ (('5' :: '6' :: '7' :: '8' :: t').takeWhile isDigitCh).length then some 12 else none := rfl
  rw [hred, if_pos h4]; rfl

theorem emailLen_isSome (t' : List Char) : (emailLen (fooBarL ++ t')).isSome := by
  have hred : emailLen (fooBarL ++ t') =
      (findDot (['b', 'a', 'r', '.', 'c', 'o', 'm'] ++ t'.takeWhile isEmailCls)).map
        (fun b => 3 + 1 + (b + 1) +
          (((['b', 'a', 'r', '.', 'c', 'o', 'm'] ++ t'.takeWhile isEmailCls).drop (b + 1)).takeWhile isWordChar).length) := rfl
  rw [hred, optMap_isSome]
  have hb : 3 < (['b', 'a', 'r', '.', 'c', 'o', 'm'] ++ t'.takeWhile isEmailCls).length := by
    simp
  have hv : validDot (['b', 'a', 'r', '.', 'c', 'o', 'm'] ++ t'.takeWhile isEmailCls) 3 = true := rfl
  exact findDot_isSome hb hv

/-! ## `clean_text` removes every occurrence of the test strings -/

theorem clean_text_no_email (t : String) : ¬ isSub fooBarL (clean_text t).data := by
  have hwne : fooBarL ≠ [] := by decide
  have hwws : ∀ c ∈ fooBarL, isPyWs c = false := by decide
  by_cases ht : t = ""
  · subst ht
    intro h
    rw [clean_text] at h
    simp at h
    exact hwne (isSub_nil_elim h)
  · intro h
    rw [clean_text, if_neg ht] at h
    have h1 : isSub fooBarL (gsubStr wsLen (gsubStr boilerLen (gsubStr phoneLen (gsubStr emailLen t)))).data :=
      pyStrip_isSub h
    have hA : ¬ isSub fooBarL (gsubStr emailLen t).data := by
      apply gsubAux_no_occ (mkMatcher emailLen) (fun x r => mkMatcher_suf) fooBarL hwne hwws
      intro s _ hp
      obtain ⟨r, rfl⟩ := hp
      rw [mkMatcher_isSome]
      exact emailLen_isSome r
    have hB : ¬ isSub fooBarL (gsubStr phoneLen (gsubStr emailLen t)).data :=
      gsubAux_preserve (mkMatcher phoneLen) (fun x r => mkMatcher_suf) fooBarL hwne hwws _ _ hA
    have hC : ¬ isSub fooBarL (gsubStr boilerLen (gsubStr phoneLen (gsubStr emailLen t))).data :=
      gsubAux_preserve (mkMatcher boilerLen) (fun x r => mkMatcher_suf) fooBarL hwne hwws _ _ hB
    have hD : ¬ isSub fooBarL (gsubStr wsLen (gsubStr boilerLen (gsubStr phoneLen (gsubStr emailLen t)))).data :=
      gsubAux_preserve (mkMatcher wsLen) (fun x r => mkMatcher_suf) fooBarL hwne hwws _ _ hC
    exact hD h1

theorem clean_text_no_phone (t : String) : ¬ isSub phoneNumL (clean_text t).data := by
  have hwne : phoneNumL ≠ [] := by decide
  have hwws : ∀ c ∈ phoneNumL, isPyWs c = false := by decide
  by_cases ht : t = ""
  · subst ht
    intro h
    rw [clean_text] at h
    simp at h
    exact hwne (isSub_nil_elim h)
  · intro h
    rw [clean_text, if_neg ht] at h
    have h1 : isSub phoneNumL (gsubStr wsLen (gsubStr boilerLen (gsubStr phoneLen (gsubStr emailLen t)))).data :=
      pyStrip_isSub h
    have hB : ¬ isSub phoneNumL (gsubStr phoneLen (gsubStr emailLen t)).data := by
      apply gsubAux_no_occ (mkMatcher phoneLen) (fun x r => mkMatcher_suf) phoneNumL hwne hwws
      intro s _ hp
      obtain ⟨r, rfl⟩ := hp
      rw [mkMatcher_isSome]
      exact phoneLen_isSome r
    have hC : ¬ isSub phoneNumL (gsubStr boilerLen (gsubStr phoneLen (gsubStr emailLen t))).data :=
      gsubAux_preserve (mkMatcher boilerLen) (fun x r => mkMatcher_suf) phoneNumL hwne hwws _ _ hB
    have hD : ¬ isSub phoneNumL (gsubStr wsLen (gsubStr boilerLen (gsubStr phoneLen (gsubStr emailLen t)))).data :=
      gsubAux_preserve (mkMatcher wsLen) (fun x r => mkMatcher_suf) phoneNumL hwne hwws _ _ hC
    exact hD h1

/-- C7 (counterexample): the claim as stated is false.  The input
`"foo@bar.com @"` contains `foo@bar.com`, yet the cleaned output is `"@"`,
which still contains the character `@`: the email pattern only removes
email-shaped substrings, and a lone `@` is not email-shaped. -/
theorem c7_text_cleaner_counterexample :
    isSub fooBarL ("foo@bar.com @".data) ∧
    isSub ['@'] ((clean_text "foo@bar.com @").data) := by
  constructor
  · exact ⟨[], [' ', '@'], by decide⟩
  · exact ⟨[], [], by decide⟩

/-- C7 (amended): for every input text, the output of the Text Cleaner does
not contain the email-shaped substring `foo@bar.com` itself (though it may
retain other `@` characters), and does not contain the phone-number-shaped
substring `02-1234-5678`. -/
theorem c7_text_cleaner_removes (t : String) :
    (isSub fooBarL t.data → ¬ isSub fooBarL (clean_text t).data) ∧
    (isSub phoneNumL t.data → ¬ isSub phoneNumL (clean_text t).data) :=
  ⟨fun _ => clean_text_no_email t, fun _ => clean_text_no_phone t⟩

/-- Witness for C7 at a concrete input containing both test strings. -/
theorem c7_text_cleaner_removes_witness :
    isSub fooBarL ("a foo@bar.com b 02-1234-5678 c".data) ∧
    ¬ isSub fooBarL ((clean_text "a foo@bar.com b 02-1234-5678 c").data) ∧
    isSub phoneNumL ("a foo@bar.com b 02-1234-5678 c".data) ∧
    ¬ isSub phoneNumL ((clean_text "a foo@bar.com b 02-1234-5678 c").data) := by
  have h1 : isSub fooBarL ("a foo@bar.com b 02-1234-5678 c".data) :=
    ⟨"a ".data, " b 02-1234-5678 c".data, by decide⟩
  have h2 : isSub phoneNumL ("a foo@bar.com b 02-1234-5678 c".data) :=
    ⟨"a foo@bar.com b ".data, " c".data, by decide⟩
  exact ⟨h1, (c7_text_cleaner_removes _).1 h1, h2, (c7_text_cleaner_removes _).2 h2⟩

/-! ## `summarize`: the first-three-sentences and length properties -/

theorem strLength_append (a b : String) : (a ++ b).length = a.length + b.length :=
  String.length_append a b

theorem pyTake_length (s : String) (n : Nat) : (pyTake s n).length = min n s.length := by
  cases s with
  | mk l => rw [pyTake, String.length_mk]; simp [String.length]

theorem sentParts_empty : sentParts "" = [] := rfl

/-- C5: for input with more than 3 sentences (the stripped non-empty
fragments of the sentence split), the output is exactly the first three
fragments joined with single spaces, truncated to the max length with an
ellipsis marker appended exactly when the joined length exceeds it; empty
input yields empty output. -/
theorem c5_summarize_first_three (text : String) (max_len : Nat) :
    (text = "" → summarize text max_len = "") ∧
    (3 < (sentParts text).length →
      (joinSp ((sentParts text).take 3)).length ≤ max_len →
        summarize text max_len = joinSp ((sentParts text).take 3)) ∧
    (3 < (sentParts text).length →
      max_len < (joinSp ((sentParts text).take 3)).length →
        summarize text max_len = pyTake (joinSp ((sentParts text).take 3)) max_len ++ "…") := by
  refine ⟨?_, ?_, ?_⟩
  · intro h; rw [summarize, if_pos h]
  · intro h3 hle
    have ht : text ≠ "" := by
      intro he; rw [he, sentParts_empty] at h3; simp at h3
    rw [summarize, if_neg ht]
    simp only []
    rw [if_neg (not_lt.mpr hle)]
  · intro h3 hlt
    have ht : text ≠ "" := by
      intro he; rw [he, sentParts_empty] at h3; simp at h3
    rw [summarize, if_neg ht]
    simp only []
    rw [if_pos hlt]

/-- Witness for C5: a five-sentence input, in the untruncated (max length
420) and truncated (max length 2) regimes, and the empty input. -/
theorem c5_summarize_first_three_witness :
    summarize "" 420 = "" ∧
    3 < (sentParts "a. b. c. d. e").length ∧
    (joinSp ((sentParts "a. b. c. d. e").take 3)).length ≤ 420 ∧
    summarize "a. b. c. d. e" 420 = joinSp ((sentParts "a. b. c. d. e").take 3) ∧
    2 < (joinSp ((sentParts "a. b. c. d. e").take 3)).length ∧
    summarize "a. b. c. d. e" 2 = pyTake (joinSp ((sentParts "a. b. c. d. e").take 3)) 2 ++ "…" :=
  ⟨(c5_summarize_first_three "" 420).1 rfl, by decide, by decide,
   (c5_summarize_first_three "a. b. c. d. e" 420).2.1 (by decide) (by decide), by decide,
   (c5_summarize_first_three "a. b. c. d. e" 2).2.2 (by decide) (by decide)⟩

/-- C10: the summarizer's output never exceeds `max_len + 1` characters,
and in the truncated case it is exactly the first `max_len` characters of
the joined sentences followed by the one-character ellipsis, of length
exactly `max_len + 1` (one more than the stated maximum). -/
theorem c10_summarize_length (text : String) (max_len : Nat) :
    (summarize text max_len).length ≤ max_len + 1 ∧
    (text ≠ "" → max_len < (joinSp ((sentParts text).take 3)).length →
      summarize text max_len = pyTake (joinSp ((sentParts text).take 3)) max_len ++ "…" ∧
      (summarize text max_len).length = max_len + 1) := by
  by_cases ht : text = ""
  · constructor
    · rw [summarize, if_pos ht]; simp [String.length]
    · intro h; exact absurd ht h
  · have hunfold : summarize text max_len =
        if max_len < (joinSp ((sentParts text).take 3)).length then
          pyTake (joinSp ((sentParts text).take 3)) max_len ++ "…" else
          joinSp ((sentParts text).take 3) := by
      rw [summarize, if_neg ht]
    by_cases hlt : max_len < (joinSp ((sentParts text).take 3)).length
    · have heq : summarize text max_len =
          pyTake (joinSp ((sentParts text).take 3)) max_len ++ "…" := by
        rw [hunfold, if_pos hlt]
      have hlen : (summarize text max_len).length = max_len + 1 := by
        rw [heq, strLength_append, pyTake_length]
        have : min max_len (joinSp ((sentParts text).take 3)).length = max_len :=
          Nat.min_eq_left (Nat.le_of_lt hlt)
        rw [this]
        rfl
      exact ⟨by rw [hlen], fun _ _ => ⟨heq, hlen⟩⟩
    · constructor
      · rw [hunfold, if_neg hlt]
        omega
      · intro _ h; exact absurd h hlt

/-- Witness for C10: truncation at max length 5 on a ten-character
single-sentence input. -/
theorem c10_summarize_length_witness :
    (summarize "abcdefghij" 5).length ≤ 6 ∧
    5 < (joinSp ((sentParts "abcdefghij").take 3)).length ∧
    summarize "abcdefghij" 5 = pyTake (joinSp ((sentParts "abcdefghij").take 3)) 5 ++ "…" ∧
    (summarize "abcdefghij" 5).length = 5 + 1 :=
  ⟨(c10_summarize_length "abcdefghij" 5).1, by decide,
   ((c10_summarize_length "abcdefghij" 5).2 (by decide) (by decide)).1,
   ((c10_summarize_length "abcdefghij" 5).2 (by decide) (by decide)).2⟩

/-! ## `dedup`: fingerprint uniqueness, order preservation, first-wins -/

theorem dedupAux_fp_notmem :
    ∀ (rows : List Row) (seen : List String) (r : Row),
      r ∈ dedupAux rows seen → fp r ∉ seen := by
  intro rows
  induction rows with
  | nil => intro seen r h; simp [dedupAux] at h
  | cons r0 rs ih =>
    intro seen r h
    rw [dedupAux] at h
    by_cases h0 : fp r0 ∈ seen
    · rw [if_pos h0] at h
      exact ih seen r h
    · rw [if_neg h0] at h
      rcases List.mem_cons.mp h with rfl | h'
      · exact h0
      · have := ih (fp r0 :: seen) r h'
        exact fun hmem => this (List.mem_cons_of_mem _ hmem)

theorem dedupAux_pairwise :
    ∀ (rows : List Row) (seen : List String),
      (dedupAux rows seen).Pairwise (fun a b => fp a ≠ fp b) := by
  intro rows
  induction rows with
  | nil => intro seen; simp [dedupAux]
  | cons r0 rs ih =>
    intro seen
    rw [dedupAux]
    by_cases h0 : fp r0 ∈ seen
    · rw [if_pos h0]; exact ih seen
    · rw [if_neg h0]
      refine List.Pairwise.cons ?_ (ih (fp r0 :: seen))
      intro b hb
      have := dedupAux_fp_notmem rs (fp r0 :: seen) b hb
      intro he
      exact this (by rw [← he]; exact List.mem_cons_self _ _)

theorem dedupAux_sublist :
    ∀ (rows : List Row) (seen : List String), (dedupAux rows seen).Sublist rows := by
  intro rows
  induction rows with
  | nil => intro seen; simp [dedupAux]
  | cons r0 rs ih =>
    intro seen
    rw [dedupAux]
    by_cases h0 : fp r0 ∈ seen
    · rw [if_pos h0]; exact (ih seen).cons r0
    · rw [if_neg h0]; exact (ih (fp r0 :: seen)).cons₂ r0

theorem dedupAux_find :
    ∀ (rows : List Row) (seen : List String) (v : String), v ∉ seen →
      (dedupAux rows seen).find? (fun x => fp x == v) = rows.find? (fun x => fp x == v) := by
  intro rows
  induction rows with
  | nil => intro seen v _; simp [dedupAux]
  | cons r0 rs ih =>
    intro seen v hv
    rw [dedupAux]
    by_cases h0 : fp r0 ∈ seen
    · rw [if_pos h0]
      have hne : (fp r0 == v) = false := by
        simp only [beq_eq_false_iff_ne, ne_eq]
        intro he; rw [he] at h0; exact hv h0
      rw [List.find?, hne]
      exact ih seen v hv
    · rw [if_neg h0]
      by_cases hev : fp r0 = v
      · have heq : (fp r0 == v) = true := beq_iff_eq.mpr hev
        rw [List.find?, heq, List.find?, heq]
      · have hne : (fp r0 == v) = false := by
          simp only [beq_eq_false_iff_ne, ne_eq]; exact hev
        rw [List.find?, hne, List.find?, hne]
        refine ih (fp r0 :: seen) v ?_
        intro hmem
        rcases List.mem_cons.mp hmem with he | hmem'
        · exact hev he.symm
        · exact hv hmem'

/-- C1: in the output of `dedup`, and hence in the list `scrape_one`
returns for a section (which is `dedup` of the gathered rows truncated to
`top_k`), no two records share the dedup fingerprint (the MD5 hex digest of
the UTF-8 encoding of title ++ first 160 characters of content). -/
theorem c1_no_duplicate_fingerprints :
    (∀ rows : List Row, (dedup rows).Pairwise (fun a b => fp a ≠ fp b)) ∧
    (∀ (extract : String → Extracted) (today sec : String) (links : List String) (top_k : Nat),
      (scrape_one extract today sec links top_k).Pairwise (fun a b => fp a ≠ fp b)) := by
  constructor
  · intro rows; exact dedupAux_pairwise rows []
  · intro extract today sec links top_k
    exact List.Pairwise.sublist (List.take_sublist _ _) (dedupAux_pairwise _ [])

theorem wordLE_lt (w : Nat) : ∀ x ∈ wordLE w, x < 256 := by
  intro x hx
  simp [wordLE] at hx
  rcases hx with rfl | rfl | rfl | rfl <;> exact Nat.mod_lt _ (by norm_num)

theorem md5Bytes_length (msg : List Nat) : (md5Bytes msg).length = 16 := by
  simp [md5Bytes, wordLE]

theorem md5Bytes_lt (msg : List Nat) : ∀ x ∈ md5Bytes msg, x < 256 := by
  intro x hx
  simp only [md5Bytes, List.mem_append] at hx
  rcases hx with ((h | h) | h) | h <;> exact wordLE_lt _ x h

theorem foldl_byte_lt :
    ∀ (l : List Nat) (acc B : Nat), (∀ b ∈ l, b < 256) → acc < B →
      l.foldl (fun a b => a * 256 + b) acc < B * 256 ^ l.length := by
  intro l
  induction l with
  | nil => intro acc B _ h; simpa using h
  | cons x l ih =>
    intro acc B hb hacc
    have hx : x < 256 := hb x (List.mem_cons_self _ _)
    have h1 : acc * 256 + x < B * 256 := by
      have h2 : (acc + 1) * 256 ≤ B * 256 := Nat.mul_le_mul_right 256 hacc
      omega
    have h3 := ih (acc * 256 + x) (B * 256) (fun b hbm => hb b (List.mem_cons_of_mem _ hbm)) h1
    rw [List.foldl_cons, List.length_cons, pow_succ]
    calc l.foldl (fun a b => a * 256 + b) (acc * 256 + x) < B * 256 * 256 ^ l.length := h3
      _ = B * (256 ^ l.length * 256) := by ring

theorem md5Nat_lt_2_128 (msg : List Nat) : md5Nat msg < 2 ^ 128 := by
  have h := foldl_byte_lt (md5Bytes msg) 0 1 (md5Bytes_lt msg) (by norm_num)
  rw [md5Bytes_length] at h
  unfold md5Nat
  calc (md5Bytes msg).foldl (fun a b => a * 256 + b) 0 < 1 * 256 ^ 16 := h
    _ = 2 ^ 128 := by norm_num

/-- C4: `dedup` keeps, for each fingerprint, exactly the first record of
the input carrying it (`find?` over the output equals `find?` over the
input for every fingerprint value), preserves the original order (its
output is a sublist of the input), drops all later duplicates (output
fingerprints are pairwise distinct), and the fingerprint is a 128-bit MD5
digest.  It is total (no error conditions). -/
theorem c4_dedup_first_per_fingerprint :
    (∀ rows : List Row,
      (dedup rows).Sublist rows ∧
      (dedup rows).Pairwise (fun a b => fp a ≠ fp b) ∧
      ∀ v : String, (dedup rows).find? (fun x => fp x == v) = rows.find? (fun x => fp x == v)) ∧
    (∀ msg : List Nat, md5Nat msg < 2 ^ 128) := by
  constructor
  · intro rows
    refine ⟨dedupAux_sublist rows [], dedupAux_pairwise rows [], ?_⟩
    intro v
    exact dedupAux_find rows [] v (by simp)
  · intro msg
    exact md5Nat_lt_2_128 msg

/-! ## The article loop of `scrape_one`: record validity and output bound -/

theorem scrapeLoop_titles (extract : String → Extracted) (today sec : String) (top_k : Nat) :
    ∀ (links : List String) (rows : List Row),
      (∀ r ∈ rows, r.title ≠ "" ∧ r.content ≠ "") →
      ∀ r ∈ scrapeLoop extract today sec top_k links rows, r.title ≠ "" ∧ r.content ≠ "" := by
  intro links
  induction links with
  | nil =>
    intro rows hr r hmem
    rw [scrapeLoop] at hmem
    exact hr r hmem
  | cons h rest ih =>
    intro rows hr r hmem
    simp only [scrapeLoop] at hmem
    set rows' := if (extract h).title ≠ "" ∧ (extract h).content ≠ ""
      then rows ++ [mkRow today sec h (extract h)] else rows with hrows'
    have hr' : ∀ x ∈ rows', x.title ≠ "" ∧ x.content ≠ "" := by
      by_cases hc : (extract h).title ≠ "" ∧ (extract h).content ≠ ""
      · rw [hrows', if_pos hc]
        intro x hx
        rcases List.mem_append.mp hx with h1 | h2
        · exact hr x h1
        · have hx2 : x = mkRow today sec h (extract h) := List.mem_singleton.mp h2
          subst hx2
          exact ⟨hc.1, hc.2⟩
      · rw [hrows', if_neg hc]
        exact hr
    by_cases hk : top_k ≤ rows'.length
    · rw [if_pos hk] at hmem
      exact hr' r hmem
    · rw [if_neg hk] at hmem
      exact ih rows' hr' r hmem

/-- C2: every Article Record appended by the orchestrator's article loop
has a non-empty title and a non-empty content field, and hence so does
every record of the per-section output `scrape_one` returns. -/
theorem c2_records_nonempty (extract : String → Extracted) (today sec : String)
    (links : List String) (top_k : Nat) :
    (∀ r ∈ scrapeRows extract today sec links top_k, r.title ≠ "" ∧ r.content ≠ "") ∧
    (∀ r ∈ scrape_one extract today sec links top_k, r.title ≠ "" ∧ r.content ≠ "") := by
  have h1 := scrapeLoop_titles extract today sec top_k links [] (by simp)
  refine ⟨h1, ?_⟩
  intro r hmem
  have hsub : (scrape_one extract today sec links top_k).Sublist
      (scrapeRows extract today sec links top_k) := by
    unfold scrape_one
    exact (List.take_sublist _ _).trans (dedupAux_sublist _ [])
  exact h1 r (hsub.subset hmem)

/-- Witness for C2: a single valid link yields a record with non-empty
title and content in the section output. -/
theorem c2_records_nonempty_witness :
    (⟨"20251012", "politics", "u", "t", "c", "c"⟩ : Row) ∈
      scrape_one (fun _ => ⟨"t", "c"⟩) "20251012" "politics" ["u"] 1 ∧
    ("t" : String) ≠ "" ∧ ("c" : String) ≠ "" := by
  have hm : (⟨"20251012", "politics", "u", "t", "c", "c"⟩ : Row) ∈
      scrape_one (fun _ => ⟨"t", "c"⟩) "20251012" "politics" ["u"] 1 := by decide
  exact ⟨hm, (c2_records_nonempty (fun _ => ⟨"t", "c"⟩) "20251012" "politics" ["u"] 1).2 _ hm⟩

/-- C3: for every requested count and every sequence of candidate links and
extraction outcomes, the list returned by `scrape_one` has length at most
`top_k` (the source truncates with `[:top_k]`). -/
theorem c3_output_length_le_topk (extract : String → Extracted) (today sec : String)
    (links : List String) (top_k : Nat) :
    (scrape_one extract today sec links top_k).length ≤ top_k := by
  unfold scrape_one
  exact List.length_take_le _ _

/-! ## `find_links_from_section`: bound, uniqueness, order -/

theorem findLinksAux_length :
    ∀ (hrefs links seen : List String) (k : Nat), links.length < k * 6 →
      (findLinksAux hrefs links seen k).length ≤ k * 6 := by
  intro hrefs
  induction hrefs with
  | nil =>
    intro links seen k h
    rw [findLinksAux]
    omega
  | cons h rest ih =>
    intro links seen k hlt
    simp only [findLinksAux]
    by_cases h0 : h = ""
    · rw [if_pos h0]
      exact ih _ _ _ hlt
    · rw [if_neg h0]
      by_cases hp : articlePattern h = true
      · rw [if_neg (not_not_intro hp)]
        by_cases hmem : resolveHref h ∈ seen
        · rw [if_pos hmem, if_pos hmem]
          by_cases hbrk : k * 6 ≤ links.length
          · rw [if_pos hbrk]; omega
          · rw [if_neg hbrk]; exact ih _ _ _ hlt
        · rw [if_neg hmem, if_neg hmem]
          by_cases hbrk : k * 6 ≤ (links ++ [resolveHref h]).length
          · rw [if_pos hbrk]
            simp only [List.length_append, List.length_singleton]
            omega
          · rw [if_neg hbrk]
            apply ih
            simp only [List.length_append, List.length_singleton] at hbrk ⊢
            omega
      · rw [if_pos hp]
        exact ih _ _ _ hlt

theorem findLinksAux_spec :
    ∀ (hrefs links seen : List String) (k : Nat),
      (∀ x, x ∈ seen ↔ x ∈ links) → links.Nodup →
      ∃ extra, findLinksAux hrefs links seen k = links ++ extra ∧
        (links ++ extra).Nodup ∧
        extra.Sublist ((hrefs.filter articlePattern).map resolveHref) := by
  intro hrefs
  induction hrefs with
  | nil =>
    intro links seen k _ hnd
    exact ⟨[], by rw [findLinksAux]; simp, by simpa using hnd, by simp⟩
  | cons h rest ih =>
    intro links seen k hseen hnd
    simp only [findLinksAux]
    by_cases h0 : h = ""
    · rw [if_pos h0]
      obtain ⟨extra, he, hnd2, hsl⟩ := ih links seen k hseen hnd
      refine ⟨extra, he, hnd2, ?_⟩
      have hpat : articlePattern h = false := by rw [h0]; decide
      rw [List.filter_cons_of_neg (by simp [hpat])]
      exact hsl
    · rw [if_neg h0]
      by_cases hp : articlePattern h = true
      · rw [if_neg (not_not_intro hp)]
        have hfc : (h :: rest).filter articlePattern = h :: rest.filter articlePattern :=
          List.filter_cons_of_pos hp
        by_cases hmem : resolveHref h ∈ seen
        · rw [if_pos hmem, if_pos hmem]
          by_cases hbrk : k * 6 ≤ links.length
          · rw [if_pos hbrk]
            exact ⟨[], by simp, by simpa using hnd, by simp⟩
          · rw [if_neg hbrk]
            obtain ⟨extra, he, hnd2, hsl⟩ := ih links seen k hseen hnd
            refine ⟨extra, he, hnd2, ?_⟩
            rw [hfc, List.map_cons]
            exact hsl.cons _
        · rw [if_neg hmem, if_neg hmem]
          have hnotin : resolveHref h ∉ links := fun hin => hmem ((hseen _).mpr hin)
          have hseen' : ∀ x, x ∈ resolveHref h :: seen ↔ x ∈ links ++ [resolveHref h] := by
            intro x
            simp only [List.mem_cons, List.mem_append, List.mem_singleton]
            rw [hseen x]
            tauto
          have hnd' : (links ++ [resolveHref h]).Nodup := by
            simp [List.nodup_append, hnd, hnotin]
          by_cases hbrk : k * 6 ≤ (links ++ [resolveHref h]).length
          · rw [if_pos hbrk]
            refine ⟨[resolveHref h], rfl, hnd', ?_⟩
            rw [hfc, List.map_cons]
            exact (List.nil_sublist _).cons₂ _
          · rw [if_neg hbrk]
            obtain ⟨extra', he', hnd2', hsl'⟩ := ih (links ++ [resolveHref h]) (resolveHref h :: seen) k hseen' hnd'
            refine ⟨resolveHref h :: extra', ?_, ?_, ?_⟩
            · rw [he', List.append_assoc]
              rfl
            · rw [show links ++ resolveHref h :: extra' = (links ++ [resolveHref h]) ++ extra' by
                rw [List.append_assoc]; rfl]
              exact hnd2'
            · rw [hfc, List.map_cons]
              exact hsl'.cons₂ _
      · rw [if_pos hp]
        obtain ⟨extra, he, hnd2, hsl⟩ := ih links seen k hseen hnd
        refine ⟨extra, he, hnd2, ?_⟩
        rw [List.filter_cons_of_neg (by simpa using hp)]
        exact hsl

theorem findLinksAux_dedupFirst :
    ∀ (hrefs links seen : List String) (k : Nat),
      (∀ x, x ∈ seen ↔ x ∈ links) → links.length < k * 6 →
      findLinksAux hrefs links seen k =
        links ++ (dedupFirstAux ((hrefs.filter articlePattern).map resolveHref) seen).take
          (k * 6 - links.length) := by
  intro hrefs
  induction hrefs with
  | nil =>
    intro links seen k _ _
    rw [findLinksAux]
    simp [dedupFirstAux]
  | cons h rest ih =>
    intro links seen k hseen hlt
    simp only [findLinksAux]
    by_cases h0 : h = ""
    · rw [if_pos h0]
      have hpat : articlePattern h = false := by rw [h0]; decide
      rw [List.filter_cons_of_neg (by simp [hpat])]
      exact ih links seen k hseen hlt
    · rw [if_neg h0]
      by_cases hp : articlePattern h = true
      · rw [if_neg (not_not_intro hp)]
        rw [List.filter_cons_of_pos hp, List.map_cons]
        by_cases hmem : resolveHref h ∈ seen
        · rw [if_pos hmem, if_pos hmem]
          rw [if_neg (show ¬ k * 6 ≤ links.length by omega)]
          simp only [dedupFirstAux]
          rw [if_pos hmem]
          exact ih links seen k hseen hlt
        · rw [if_neg hmem, if_neg hmem]
          simp only [dedupFirstAux]
          rw [if_neg hmem]
          have htk : k * 6 - links.length = (k * 6 - links.length - 1) + 1 := by omega
          rw [htk, List.take_succ_cons]
          by_cases hbrk : k * 6 ≤ (links ++ [resolveHref h]).length
          · rw [if_pos hbrk]
            simp only [List.length_append, List.length_singleton] at hbrk
            have h0tk : k * 6 - links.length - 1 = 0 := by omega
            rw [h0tk, List.take_zero]
          · rw [if_neg hbrk]
            simp only [List.length_append, List.length_singleton] at hbrk
            have hseen' : ∀ x, x ∈ resolveHref h :: seen ↔ x ∈ links ++ [resolveHref h] := by
              intro x
              simp only [List.mem_cons, List.mem_append, List.mem_singleton]
              rw [hseen x]
              tauto
            have hlt' : (links ++ [resolveHref h]).length < k * 6 := by
              simp only [List.length_append, List.length_singleton]
              omega
            rw [ih (links ++ [resolveHref h]) (resolveHref h :: seen) k hseen' hlt']
            simp only [List.length_append, List.length_singleton]
            rw [List.append_assoc]
            have harith : k * 6 - (links.length + 1) = k * 6 - links.length - 1 := by omega
            rw [harith]
            rfl
      · rw [if_pos hp]
        rw [List.filter_cons_of_neg (by simpa using hp)]
        exact ih links seen k hseen hlt

/-- C6 (counterexample): with desired count `k = 0` the bound `6 × k = 0`
fails: the break test `len(links) >= limit * 6` runs only after a link has
been appended, so one matching href still produces one output link. -/
theorem c6_link_extractor_counterexample :
    find_links_from_section ["/read.naver"] 0 = ["https://news.naver.com/read.naver"] ∧
    ¬ ((find_links_from_section ["/read.naver"] 0).length ≤ 6 * 0) := by
  constructor
  · decide
  · decide

/-- C6 (amended): for every list of anchor hrefs and every desired count
`k ≥ 1`, the Link Extractor's output is exactly the keep-first,
first-seen-order deduplication of the accepted hrefs (those containing one
of the two article-path substrings) resolved against the portal origin,
truncated to the first `6 × k`; in particular it is a list of at most
`6 × k` unique URLs and an in-order sublist of the accepted resolved
hrefs.  For `k = 0` the output may instead contain one link. -/
theorem c6_link_extractor_bounded (hrefs : List String) (k : Nat) (hk : 1 ≤ k) :
    find_links_from_section hrefs k =
      (dedupFirst ((hrefs.filter articlePattern).map resolveHref)).take (6 * k) ∧
    (find_links_from_section hrefs k).length ≤ 6 * k ∧
    (find_links_from_section hrefs k).Nodup ∧
    (find_links_from_section hrefs k).Sublist ((hrefs.filter articlePattern).map resolveHref) := by
  have hlen := findLinksAux_length hrefs [] [] k (by simp; omega)
  obtain ⟨extra, heq, hnd, hsl⟩ := findLinksAux_spec hrefs [] [] k (by simp) (by simp)
  have hdf := findLinksAux_dedupFirst hrefs [] [] k (by simp) (by simp; omega)
  unfold find_links_from_section
  refine ⟨?_, by omega, ?_, ?_⟩
  · rw [hdf]
    unfold dedupFirst
    simp [Nat.mul_comm]
  · rw [heq]; simpa using hnd
  · rw [heq]; simpa using hsl

/-- Witness for C6 at `k = 1` with four hrefs: two distinct accepted ones
and a duplicate whose second occurrence is dropped while the first keeps
its position. -/
theorem c6_link_extractor_bounded_witness :
    1 ≤ 1 ∧
    (find_links_from_section ["/read.naver?a", "x", "/read.naver?a", "/mnews/article/1"] 1 =
      (dedupFirst (((["/read.naver?a", "x", "/read.naver?a", "/mnews/article/1"] : List String).filter
        articlePattern).map resolveHref)).take (6 * 1) ∧
     (find_links_from_section ["/read.naver?a", "x", "/read.naver?a", "/mnews/article/1"] 1).length ≤ 6 * 1 ∧
     (find_links_from_section ["/read.naver?a", "x", "/read.naver?a", "/mnews/article/1"] 1).Nodup ∧
     (find_links_from_section ["/read.naver?a", "x", "/read.naver?a", "/mnews/article/1"] 1).Sublist
       (((["/read.naver?a", "x", "/read.naver?a", "/mnews/article/1"] : List String).filter
         articlePattern).map resolveHref)) :=
  ⟨by decide,
   c6_link_extractor_bounded ["/read.naver?a", "x", "/read.naver?a", "/mnews/article/1"] 1 (by decide)⟩

/-- C8: `extract_article` is total (the embedding is a function — fetch
failures are `none` outcomes, not propagated exceptions).  If neither the
desktop nor the mobile rendering yields a non-empty title together with a
non-empty cleaned body, it returns the sentinel `{title: "", content: ""}`;
and a desktop fetch failure leads to the mobile attempt: the result is then
determined by the mobile rendering alone. -/
theorem c8_extract_article_sentinel (fetch : Bool → Option Doc) :
    ((∀ m d, fetch m = some d → docTitle d = "" ∨ docBody d = "") →
      extract_article fetch = ⟨"", ""⟩) ∧
    (fetch false = none →
      extract_article fetch =
        match fetch true with
        | none => ⟨"", ""⟩
        | some d => if docTitle d ≠ "" ∧ docBody d ≠ "" then ⟨docTitle d, docBody d⟩ else ⟨"", ""⟩) := by
  constructor
  · intro hnone
    cases hf : fetch false with
    | none =>
      cases ht : fetch true with
      | none => simp only [extract_article, extractLoop, hf, ht]
      | some d =>
        have hd := hnone true d ht
        simp only [extract_article, extractLoop, hf, ht]
        rw [if_neg (by tauto)]
    | some d =>
      have hd := hnone false d hf
      cases ht : fetch true with
      | none =>
        simp only [extract_article, extractLoop, hf, ht]
        rw [if_neg (by tauto)]
      | some d2 =>
        have hd2 := hnone true d2 ht
        simp only [extract_article, extractLoop, hf, ht]
        rw [if_neg (by tauto), if_neg (by tauto)]
  · intro hf
    cases ht : fetch true with
    | none => simp only [extract_article, extractLoop, hf, ht]
    | some d => simp only [extract_article, extractLoop, hf, ht]

/-- Witness for C8: with both fetches failing, the sentinel is returned and
the result coincides with the mobile-only outcome. -/
theorem c8_extract_article_sentinel_witness :
    extract_article (fun _ => none) = ⟨"", ""⟩ ∧
    extract_article (fun _ => none) =
      match (fun (_ : Bool) => (none : Option Doc)) true with
      | none => ⟨"", ""⟩
      | some d => if docTitle d ≠ "" ∧ docBody d ≠ "" then ⟨docTitle d, docBody d⟩ else ⟨"", ""⟩ :=
  ⟨(c8_extract_article_sentinel (fun _ => none)).1 (fun _ _ h => Option.noConfusion h),
   (c8_extract_article_sentinel (fun _ => none)).2 rfl⟩

/-- C9: the combined list accumulated by `main` is exactly the
concatenation of the per-section outputs in the configured section order
(politics, economy, society, culture, world, it_science). -/
theorem c9_combined_concatenation (scrape : String → Nat → List Row) :
    mainRows scrape =
      scrape "politics" 100 ++ scrape "economy" 101 ++ scrape "society" 102 ++
      scrape "culture" 103 ++ scrape "world" 104 ++ scrape "it_science" 105 := rfl
